import Mathlib

/-!
Verification of the time-window cache and chart-interaction controller of the
svitlo-e-stats dashboard (`src/components/ChartSection.tsx`) together with the
pure time utilities (`src/utils/time.ts`).

The embedding models JavaScript `Map` objects (and plain objects used as
string-keyed records) as insertion-ordered association lists, which matches
the iteration order guaranteed by the language.  Numeric values are modelled
as `Int`/`Nat`; the few places where the source multiplies by a floating-point
constant (`* 0.01`, `* (1 / 7)`, `/ 1000`) before `Math.round` are modelled as
exact half-up rational rounding, which agrees with the double computation on
all integer inputs in the realistic range (the exact tie points of half-up
rounding are never hit by `n / 7`, and for `n / 100` and `n / 1000` the double
product lands on the same side of the tie as the exact value).
-/

namespace Svitlo

/-! ## JavaScript `Map` model -/

/-- Insertion-ordered association list: the model of a JS `Map` (and of plain
objects used as records). -/
abbrev JsMap (α β : Type) := List (α × β)

/-- `Map.get` / property read: first entry with the key, if any. -/
def jsGet? {α β : Type} [DecidableEq α] (m : JsMap α β) (k : α) : Option β :=
  (m.find? (fun p => p.1 = k)).map (fun p => p.2)

/-- `m.get(k) ?? d`. -/
def jsGetD {α β : Type} [DecidableEq α] (m : JsMap α β) (k : α) (d : β) : β :=
  (jsGet? m k).getD d

/-- `Map.set` / property write: overwrite in place keeping the position,
otherwise append at the end (JS insertion-order semantics). -/
def jsSet {α β : Type} [DecidableEq α] : JsMap α β → α → β → JsMap α β
  | [], k, v => [(k, v)]
  | p :: rest, k, v =>
      if p.1 = k then (k, v) :: rest else p :: jsSet rest k v

/-- `Map.delete`: remove the entry with the key. -/
def jsDelete {α β : Type} [DecidableEq α] (m : JsMap α β) (k : α) : JsMap α β :=
  m.eraseP (fun p => p.1 = k)

/-- The keys of a map, in insertion order. -/
def jsKeys {α β : Type} (m : JsMap α β) : List α :=
  m.map (fun p => p.1)

/-- Well-formedness of a JS map: no key occurs twice (maintained by
construction in actual JS `Map`s / objects). -/
def NodupKeys {α β : Type} (m : JsMap α β) : Prop :=
  (jsKeys m).Nodup

/-! ## Data model

`AccessStatsResponse` from `src/types.ts`, with the optional `meta` fields
flattened (`meta?.types`, `meta?.availableMin`, `meta?.availableMax`); a
missing `meta` is the same as all three fields missing.  Timestamps are epoch
milliseconds (`Int`), counts are numbers (`Int`). -/

structure AccessStatsResponse where
  metaTypes : List String
  metaAvailableMin : Option String
  metaAvailableMax : Option String
  bins : List Int
  countsByType : JsMap String (List Int)
  total : List Int
deriving Repr, DecidableEq

/-- Cache entry (`CacheItem` in `ChartSection.tsx`): the normalized response
tagged with `Date.now()` at load time. -/
structure CacheItem where
  data : AccessStatsResponse
  loadedAt : Nat
deriving Repr, DecidableEq

/-! ## Time utilities (`src/utils/time.ts`) -/

/-- `parseMetaTime` from `src/utils/time.ts`.  `dateParse` abstracts
`new Date(value).getTime()`: `none` stands for a `NaN` result (unparseable
date), `some t` for a finite epoch-milliseconds value.  The JS guard
`if (!value) return undefined` is falsy for `undefined`, `null` and the empty
string. -/
def parseMetaTime (dateParse : String → Option Int) :
    Option String → Option Int
  | none => none
  | some s => if s = "" then none else dateParse s

/-- `normalizeZoomRange` from `src/utils/time.ts`.  Inputs are
`number | undefined`; `Int` models the finite numbers, so the
`Number.isFinite` guards are absorbed by the type.  Note the source returns
`null` when `startValue >= endValue`; it does not swap the endpoints. -/
def normalizeZoomRange (startValue endValue : Option Int) :
    Option (Int × Int) :=
  match startValue, endValue with
  | some s, some e => if e ≤ s then none else some (s, e)
  | _, _ => none

/-- `getOptimalBinSec` from `src/utils/time.ts`. -/
def getOptimalBinSec (rangeSec : Int) : Int :=
  if rangeSec ≤ 6 * 60 * 60 then 60
  else if rangeSec ≤ 3 * 24 * 60 * 60 then 5 * 60
  else if rangeSec ≤ 14 * 24 * 60 * 60 then 15 * 60
  else if rangeSec ≤ 60 * 24 * 60 * 60 then 60 * 60
  else 4 * 60 * 60

/-! ## Zoom gesture computation (`handleZoomRange` in `ChartSection.tsx`) -/

/-- `Math.round (n / d)` for natural `n` and positive `d`: half-up rounding
of the exact quotient.  Models `Math.round(x * 0.01)`, `Math.round(x * (1/7))`
and `Math.round(x / 1000)` in the source (see the file comment). -/
def jsRoundHalfUpDiv (n d : Nat) : Nat :=
  (2 * n + d) / (2 * d)

/-- `Math.abs (a - b)` for naturals. -/
def absDiff (a b : Nat) : Nat :=
  max a b - min a b

/-- `MAX_CACHE_SIZE` constant of `ChartSection.tsx`. -/
def MAX_CACHE_SIZE : Nat := 20

/-- `minRangeSec` of `ChartSection.tsx`:
`Math.min(zoomLimitSec, Math.max(MIN_RANGE_SEC, Math.round(zoomLimitSec * MIN_RANGE_RATIO)))`
with `MIN_RANGE_SEC = 60` and the ratio `1 / 7`. -/
def minRangeSec (zoomLimitSec : Nat) : Nat :=
  min zoomLimitSec (max 60 (jsRoundHalfUpDiv zoomLimitSec 7))

/-- `rawRangeSec` in `handleZoomRange`:
`Math.round((actualEnd - actualStart) / 1000)` where `actualStart`/`actualEnd`
are `Math.min`/`Math.max` of the gesture endpoints. -/
def rawRangeSec (startMs endMs : Nat) : Nat :=
  jsRoundHalfUpDiv (absDiff startMs endMs) 1000

/-- `stickyRangeToleranceSec` in `handleZoomRange`:
`Math.max(2, Math.round(selectedOption.seconds * 0.01))`. -/
def stickyRangeToleranceSec (selSeconds : Nat) : Nat :=
  max 2 (jsRoundHalfUpDiv selSeconds 100)

/-- `effectiveRawRangeSec` in `handleZoomRange`: snap the raw span to the
selected option's span when within the sticky tolerance. -/
def effectiveRawRangeSec (raw selSeconds : Nat) : Nat :=
  if absDiff raw selSeconds ≤ stickyRangeToleranceSec selSeconds then
    selSeconds
  else raw

/-- `boundedRangeSec` in `handleZoomRange`:
`Math.max(Math.min(effectiveRawRangeSec, zoomLimitSec), minRangeSec)`. -/
def boundedRangeSec (effective zoomLimitSec : Nat) : Nat :=
  max (min effective zoomLimitSec) (minRangeSec zoomLimitSec)

/-! ## Fetch/cache layer (`fetchStats`, `evictOldestCache` in
`ChartSection.tsx`) -/

/-- `makeCacheKey` of `ChartSection.tsx`:
`` `${Math.round(endTimeEpochMs)}:${Math.round(rangeSec)}:${binSec}` ``.
The arguments are modelled as integers, on which `Math.round` is the
identity. -/
def makeCacheKey (endTimeEpochMs rangeSec binSec : Int) : String :=
  toString endTimeEpochMs ++ ":" ++ toString rangeSec ++ ":" ++ toString binSec

/-- The mutable state touched by `fetchStats`: `cacheRef.current`,
`inFlightRef.current` (only the key set matters — there is at most one
pending promise per key), and a counter of network requests issued
(`fetch(...)` calls). -/
structure FetchState where
  cache : JsMap String CacheItem
  inflight : List String
  network : Nat
deriving Repr, DecidableEq

/-- What a call to `fetchStats` returns synchronously: either the cached
window, or the (single) pending promise for the key. -/
inductive FetchResult where
  | hit (d : AccessStatsResponse)
  | pending (key : String)
deriving Repr, DecidableEq

/-- The synchronous prefix of `fetchStats(targetEndTime, targetRangeSec,
targetBinSec)`: check the cache, then the in-flight table, and only then
issue a network request and register the in-flight entry.  No `await`
happens inside this block, so consecutive calls see each other's in-flight
entries. -/
def fetchStart (s : FetchState) (targetEndTime targetRangeSec targetBinSec : Int) :
    FetchResult × FetchState :=
  let cacheKey := makeCacheKey targetEndTime targetRangeSec targetBinSec
  match jsGet? s.cache cacheKey with
  | some cached => (.hit cached.data, s)
  | none =>
      if cacheKey ∈ s.inflight then (.pending cacheKey, s)
      else
        (.pending cacheKey,
          { s with inflight := s.inflight ++ [cacheKey],
                   network := s.network + 1 })

/-- A back-to-back sequence of `n` calls to `fetchStats` with the same
argument triple, none of which has settled yet: returns every caller's
result and the final state. -/
def runStarts (s : FetchState)
    (targetEndTime targetRangeSec targetBinSec : Int) :
    Nat → List FetchResult × FetchState
  | 0 => ([], s)
  | n + 1 =>
      let r := fetchStart s targetEndTime targetRangeSec targetBinSec
      let rest := runStarts r.2 targetEndTime targetRangeSec targetBinSec n
      (r.1 :: rest.1, rest.2)

/-- One iteration of the `forEach` scan in `evictOldestCache`: the
accumulator `none` stands for the initial `oldestKey = null` /
`oldestTime = Infinity` pair, and only a strictly smaller `loadedAt`
(`item.loadedAt < oldestTime`) replaces the current best. -/
def oldestStep (best : Option (String × Nat)) (p : String × CacheItem) :
    Option (String × Nat) :=
  match best with
  | none => some (p.1, p.2.loadedAt)
  | some (bk, bt) =>
      if p.2.loadedAt < bt then some (p.1, p.2.loadedAt) else some (bk, bt)

/-- The full `forEach` scan of `evictOldestCache` looking for the entry with
the smallest `loadedAt`. -/
def oldestScan : Option (String × Nat) → JsMap String CacheItem →
    Option (String × Nat)
  | best, [] => best
  | best, p :: rest => oldestScan (oldestStep best p) rest

/-- `evictOldestCache` of `ChartSection.tsx`: a no-op while the cache holds
at most `MAX_CACHE_SIZE` entries, otherwise delete the least-recently-loaded
entry.  The JS guard `if (oldestKey)` is falsy for `null` (empty scan) and
for the empty-string key, which `makeCacheKey` never produces. -/
def evictOldestCache (cache : JsMap String CacheItem) :
    JsMap String CacheItem :=
  if cache.length ≤ MAX_CACHE_SIZE then cache
  else
    match oldestScan none cache with
    | some (oldestKey, _) =>
        if oldestKey = "" then cache else jsDelete cache oldestKey
    | none => cache

/-- The settling of the network request started by `fetchStats` for a key:
on fulfilment the normalized response is cached (tagged `Date.now()`, here
`now`), the eviction pass runs, and the in-flight entry is removed by the
`finally`; on rejection only the in-flight entry is removed and the error is
re-thrown to the caller. -/
def settleFetch (s : FetchState)
    (targetEndTime targetRangeSec targetBinSec : Int)
    (outcome : Except String AccessStatsResponse) (now : Nat) :
    FetchState × Except String AccessStatsResponse :=
  let cacheKey := makeCacheKey targetEndTime targetRangeSec targetBinSec
  match outcome with
  | .ok data =>
      ({ s with
          cache := evictOldestCache (jsSet s.cache cacheKey ⟨data, now⟩),
          inflight := s.inflight.erase cacheKey },
        .ok data)
  | .error msg =>
      ({ s with inflight := s.inflight.erase cacheKey }, .error msg)

/-! ## `loadRange` resolution (`ChartSection.tsx`) -/

/-- The UI-visible state written by `loadRange`'s completion code:
`chartData`, `error`, `loading` and the `availableRange` pair. -/
structure UIState where
  chartData : Option AccessStatsResponse
  error : Option String
  loading : Bool
  availMin : Option Int
  availMax : Option Int
deriving Repr, DecidableEq

/-- The `setAvailableRange` step inside `loadRange`: the previous pair is
replaced only when both `parseMetaTime(data.meta?.availableMin)` and
`parseMetaTime(data.meta?.availableMax)` are finite
(`Number.isFinite(undefined)` is `false`). -/
def updateAvailableRange (prevMin prevMax metaMin metaMax : Option Int) :
    Option Int × Option Int :=
  match metaMin, metaMax with
  | some a, some b => (some a, some b)
  | _, _ => (prevMin, prevMax)

/-- The `availableRange` update performed by `loadRange` on a successful
response `d`. -/
def applyMetaRange (dateParse : String → Option Int)
    (d : AccessStatsResponse) (prevMin prevMax : Option Int) :
    Option Int × Option Int :=
  updateAvailableRange prevMin prevMax
    (parseMetaTime dateParse d.metaAvailableMin)
    (parseMetaTime dateParse d.metaAvailableMax)

/-- The resolution of one `loadRange` call: `myId` is the sequence number
`++requestIdRef.current` taken when the load started, `curId` the value of
`requestIdRef.current` when the fetch settles.  Mirrors the
`if (requestId !== requestIdRef.current) return;` guards in the `try`, the
`catch`, and the `finally`. -/
def loadResolve (myId curId : Nat) (dateParse : String → Option Int)
    (outcome : Except String AccessStatsResponse) (ui : UIState) : UIState :=
  match outcome with
  | .ok d =>
      if myId = curId then
        let next := applyMetaRange dateParse d ui.availMin ui.availMax
        { chartData := some d
          error := none
          loading := false
          availMin := next.1
          availMax := next.2 }
      else ui
  | .error msg =>
      if myId = curId then { ui with error := some msg, loading := false }
      else ui

/-! ## Prefetch controller (`prefetchAdjacent` in `ChartSection.tsx`) -/

/-- The available minimum used by `prefetchAdjacent`:
`parseMetaTime(data?.meta?.availableMin) ?? availableRange.min`. -/
def resolvedAvailableMin (dateParse : String → Option Int)
    (data : Option AccessStatsResponse) (lastMin : Option Int) : Option Int :=
  match parseMetaTime dateParse (data.bind (fun d => d.metaAvailableMin)) with
  | some v => some v
  | none => lastMin

/-- The available maximum used by `prefetchAdjacent`:
`parseMetaTime(data?.meta?.availableMax) ?? availableRange.max`. -/
def resolvedAvailableMax (dateParse : String → Option Int)
    (data : Option AccessStatsResponse) (lastMax : Option Int) : Option Int :=
  match parseMetaTime dateParse (data.bind (fun d => d.metaAvailableMax)) with
  | some v => some v
  | none => lastMax

/-- The pair of decisions taken by `prefetchAdjacent`:
`canPrefetchPrev = availableMin == null || prevEnd - rangeMs >= availableMin`
and `canPrefetchNext = availableMax == null || nextEnd <= availableMax`,
where `prevEnd = targetEndTime - rangeMs` and
`nextEnd = targetEndTime + rangeMs`. -/
def prefetchFlags (dateParse : String → Option Int)
    (targetEndTime targetRangeSec : Int)
    (data : Option AccessStatsResponse)
    (lastMin lastMax : Option Int) : Bool × Bool :=
  let rangeMs := targetRangeSec * 1000
  let currentStart := targetEndTime - rangeMs
  let availableMin := resolvedAvailableMin dateParse data lastMin
  let availableMax := resolvedAvailableMax dateParse data lastMax
  let prevEnd := currentStart
  let nextEnd := targetEndTime + rangeMs
  (match availableMin with
   | none => true
   | some mn => decide (mn ≤ prevEnd - rangeMs),
   match availableMax with
   | none => true
   | some mx => decide (nextEnd ≤ mx))

/-! ## Series assembly (`seriesData` in `ChartSection.tsx`) -/

/-- The inner `bins.forEach((bin, index) => ...)` of `seriesData`: for each
bin timestamp, add `values[index] ?? 0` to the accumulated value
`dataByType[type].get(bin) ?? 0`. -/
def addBins : JsMap Int Int → List Int → List Int → JsMap Int Int
  | m, [], _ => m
  | m, bin :: bs, vs =>
      addBins (jsSet m bin (jsGetD m bin 0 + vs.headD 0)) bs vs.tail

/-- The `Object.entries(countsByType).forEach(...)` loop of `seriesData` for
one cached window: each `(type, values)` entry folds its bins into that
type's map (creating the map if the type was not seen before). -/
def processEntries (bins : List Int) :
    JsMap String (JsMap Int Int) → JsMap String (List Int) →
    JsMap String (JsMap Int Int)
  | acc, [] => acc
  | acc, (ty, values) :: rest =>
      processEntries bins
        (jsSet acc ty (addBins (jsGetD acc ty []) bins values)) rest

/-- Folding one cached window into `dataByType`. -/
def processWindow (acc : JsMap String (JsMap Int Int))
    (d : AccessStatsResponse) : JsMap String (JsMap Int Int) :=
  processEntries d.bins acc d.countsByType

/-- The `allTypes` set of `seriesData`: every `meta.types` entry of every
cached window, first occurrence first (JS `Set` iteration order). -/
def collectTypes (ws : List AccessStatsResponse) : List String :=
  ws.foldl
    (fun acc d =>
      d.metaTypes.foldl (fun a t => if t ∈ a then a else a ++ [t]) acc)
    []

/-- `allTypes.forEach((type) => { dataByType[type] = new Map(); })`. -/
def initTypeMaps (ts : List String) : JsMap String (JsMap Int Int) :=
  ts.foldl (fun acc t => jsSet acc t []) []

/-- The fully accumulated `dataByType` record over the cache contents
(iterated in `cachedData.values()` order). -/
def dataByType (ws : List AccessStatsResponse) :
    JsMap String (JsMap Int Int) :=
  ws.foldl processWindow (initTypeMaps (collectTypes ws))

/-- `Array.from(map.entries()).sort((a, b) => a[0] - b[0])`.  JS leaves the
sorting algorithm unspecified; on lists whose keys are distinct (as here:
the entries of a `Map`) every comparison sort computes the same result, so
a structural insertion sort is a faithful model. -/
def sortEntries (m : JsMap Int Int) : List (Int × Int) :=
  List.insertionSort (fun a b => a.1 ≤ b.1) m

/-- `seriesData` of `ChartSection.tsx`: per category, the merged map's
entries sorted by bin timestamp. -/
def seriesData (ws : List AccessStatsResponse) :
    JsMap String (List (Int × Int)) :=
  (dataByType ws).map (fun p => (p.1, sortEntries p.2))

/-- The value a single `(bins, values)` pair contributes at timestamp `t`:
the sum of `values[index] ?? 0` over the positions where `bins[index] = t`. -/
def binsContrib : List Int → List Int → Int → Int
  | [], _, _ => 0
  | bin :: bs, vs, t =>
      (if bin = t then vs.headD 0 else 0) + binsContrib bs vs.tail t

/-- The value one cached window holds for category `ty` at timestamp `t`. -/
def windowContrib (d : AccessStatsResponse) (ty : String) (t : Int) : Int :=
  (d.countsByType.map
    (fun tv => if tv.1 = ty then binsContrib d.bins tv.2 t else 0)).sum

/-- The sum, over all cached windows, of the values held for category `ty`
at timestamp `t`. -/
def totalContrib (ws : List AccessStatsResponse) (ty : String) (t : Int) :
    Int :=
  (ws.map (fun d => windowContrib d ty t)).sum

/-- Concrete window used by the C4 witness: bins {1000: 5, 2000: 7} for
category "cl". -/
def exampleWindow1 : AccessStatsResponse :=
  ⟨["cl"], none, none, [1000, 2000], [("cl", [5, 7])], [5, 7]⟩

/-- Concrete window used by the C4 witness: bins {2000: 3, 3000: 9} for
category "cl". -/
def exampleWindow2 : AccessStatsResponse :=
  ⟨["cl"], none, none, [2000, 3000], [("cl", [3, 9])], [3, 9]⟩

/-! ## Generic helper lemmas -/

@[simp] theorem jsGet?_nil {α β : Type} [DecidableEq α] (k : α) :
    jsGet? ([] : JsMap α β) k = none := rfl

theorem jsGet?_cons {α β : Type} [DecidableEq α] (p : α × β) (m : JsMap α β)
    (k : α) :
    jsGet? (p :: m) k = if p.1 = k then some p.2 else jsGet? m k := by
  by_cases h : p.1 = k <;> simp [jsGet?, List.find?_cons, h]

@[simp] theorem jsGet?_jsSet_self {α β : Type} [DecidableEq α]
    (m : JsMap α β) (k : α) (v : β) :
    jsGet? (jsSet m k v) k = some v := by
  induction m with
  | nil => simp [jsSet, jsGet?]
  | cons p rest ih =>
      by_cases h : p.1 = k
      · simp [jsSet, h, jsGet?_cons]
      · simp [jsSet, h, jsGet?_cons, ih]

theorem jsGet?_jsSet_ne {α β : Type} [DecidableEq α]
    (m : JsMap α β) (k k' : α) (v : β) (h : k' ≠ k) :
    jsGet? (jsSet m k v) k' = jsGet? m k' := by
  have hne : ¬ k = k' := fun hh => h hh.symm
  induction m with
  | nil =>
      simp only [jsSet, jsGet?_cons]
      rw [if_neg hne]
  | cons p rest ih =>
      by_cases hp : p.1 = k
      · subst hp
        have hset : jsSet (p :: rest) p.1 v = (p.1, v) :: rest := by
          simp [jsSet]
        rw [hset, jsGet?_cons, jsGet?_cons, if_neg hne, if_neg hne]
      · simp only [jsSet, hp, if_false]
        rw [jsGet?_cons, jsGet?_cons, ih]

theorem mem_jsKeys_jsSet {α β : Type} [DecidableEq α]
    (m : JsMap α β) (k a : α) (v : β) :
    a ∈ jsKeys (jsSet m k v) ↔ a ∈ jsKeys m ∨ a = k := by
  induction m with
  | nil => simp [jsSet, jsKeys]
  | cons p rest ih =>
      by_cases hp : p.1 = k
      · subst hp
        simp [jsSet, jsKeys]
        tauto
      · simp only [jsSet, hp, if_false, jsKeys, List.map_cons, List.mem_cons]
        rw [show List.map (fun p => p.1) (jsSet rest k v) =
              jsKeys (jsSet rest k v) from rfl, ih]
        simp [jsKeys]
        tauto

theorem length_jsSet {α β : Type} [DecidableEq α]
    (m : JsMap α β) (k : α) (v : β) :
    (jsSet m k v).length =
      if k ∈ jsKeys m then m.length else m.length + 1 := by
  induction m with
  | nil => simp [jsSet, jsKeys]
  | cons p rest ih =>
      by_cases hp : p.1 = k
      · subst hp
        simp [jsSet, jsKeys]
      · simp only [jsSet, hp, if_false, List.length_cons, ih, jsKeys,
          List.map_cons, List.mem_cons]
        have : ¬ k = p.1 := fun hh => hp hh.symm
        by_cases hk : k ∈ List.map (fun p => p.1) rest <;>
          simp [jsKeys, this, hk]

theorem nodupKeys_jsSet {α β : Type} [DecidableEq α]
    (m : JsMap α β) (k : α) (v : β) (h : NodupKeys m) :
    NodupKeys (jsSet m k v) := by
  induction m with
  | nil => simp [jsSet, NodupKeys, jsKeys]
  | cons p rest ih =>
      by_cases hp : p.1 = k
      · subst hp
        simpa [jsSet, NodupKeys, jsKeys] using h
      · simp only [NodupKeys, jsKeys, List.map_cons, List.nodup_cons] at h
        have h2 := ih h.2
        simp only [jsSet, hp, if_false, NodupKeys, jsKeys, List.map_cons,
          List.nodup_cons]
        refine ⟨?_, h2⟩
        intro hmem
        rw [show List.map (fun p => p.1) (jsSet rest k v) =
              jsKeys (jsSet rest k v) from rfl, mem_jsKeys_jsSet] at hmem
        rcases hmem with hmem | hmem
        · exact h.1 hmem
        · exact hp hmem

theorem jsGet?_eq_some_of_mem {α β : Type} [DecidableEq α]
    (m : JsMap α β) (k : α) (v : β) (hmem : (k, v) ∈ m)
    (hnd : NodupKeys m) :
    jsGet? m k = some v := by
  induction m with
  | nil => simp at hmem
  | cons p rest ih =>
      simp only [NodupKeys, jsKeys, List.map_cons, List.nodup_cons] at hnd
      rcases List.mem_cons.mp hmem with h | h
      · subst h
        simp [jsGet?_cons]
      · have hk : p.1 ≠ k := by
          intro hpk
          exact hnd.1 (hpk ▸ (List.mem_map.mpr ⟨(k, v), h, rfl⟩))
        simp [jsGet?_cons, hk]
        exact ih h hnd.2

theorem length_jsDelete_of_mem {α β : Type} [DecidableEq α]
    (m : JsMap α β) (k : α) (hmem : k ∈ jsKeys m) :
    (jsDelete m k).length + 1 = m.length := by
  induction m with
  | nil => simp [jsKeys] at hmem
  | cons p rest ih =>
      by_cases hp : p.1 = k
      · simp [jsDelete, List.eraseP_cons, hp]
      · simp only [jsKeys, List.map_cons, List.mem_cons] at hmem
        rcases hmem with h | h
        · exact absurd h.symm hp
        · simp only [jsDelete, List.eraseP_cons, hp, decide_eq_true_eq,
            if_false, List.length_cons]
          have := ih h
          simp only [jsDelete] at this
          simp [decide_eq_false hp]
          omega

theorem jsGetD_jsSet {α β : Type} [DecidableEq α]
    (m : JsMap α β) (k k' : α) (v d : β) :
    jsGetD (jsSet m k v) k' d = if k' = k then v else jsGetD m k' d := by
  by_cases h : k' = k
  · subst h
    simp [jsGetD]
  · simp [jsGetD, jsGet?_jsSet_ne m k k' v h, h]

/-! ## Claim theorems: zoom controller -/

/-- C5: for every zoom gesture, the effective span after snapping is clamped
to `[minRangeSec zl, zl]` where `zl` is the zoom limit: the result always
lies in the interval, a request below `minRangeSec` yields exactly
`minRangeSec`, and a request above the zoom limit yields exactly the zoom
limit. -/
theorem zoom_span_clamped (effective zl : Nat) :
    minRangeSec zl ≤ boundedRangeSec effective zl ∧
    boundedRangeSec effective zl ≤ zl ∧
    (effective < minRangeSec zl →
      boundedRangeSec effective zl = minRangeSec zl) ∧
    (zl < effective → boundedRangeSec effective zl = zl) := by
  unfold boundedRangeSec minRangeSec
  generalize jsRoundHalfUpDiv zl 7 = r
  omega

/-- Witness for C5 at concrete inputs: a 30-second request against the 7-day
preset is clamped up to `minRangeSec`, and a 700000-second request is clamped
down to the zoom limit. -/
theorem zoom_span_clamped_witness :
    boundedRangeSec 30 604800 = minRangeSec 604800 ∧
    boundedRangeSec 700000 604800 = 604800 :=
  ⟨(zoom_span_clamped 30 604800).2.2.1 (by decide),
   (zoom_span_clamped 700000 604800).2.2.2 (by decide)⟩

/-- C6: a zoom gesture whose raw span is within `max 2 (1% of the zoom
limit)` of the currently selected preset's span snaps exactly to that
preset's span.  When a preset is the current selection, its span equals the
zoom limit (`hpreset`), which is exactly when the claim's tolerance
`max(2, 1% of zoomLimitSec)` coincides with the code's
`stickyRangeToleranceSec` of the selected span. -/
theorem zoom_sticky_snap (startMs endMs selSeconds zl : Nat)
    (hpreset : selSeconds = zl)
    (htol : absDiff (rawRangeSec startMs endMs) zl ≤
      max 2 (jsRoundHalfUpDiv zl 100)) :
    effectiveRawRangeSec (rawRangeSec startMs endMs) selSeconds = selSeconds := by
  subst hpreset
  unfold effectiveRawRangeSec stickyRangeToleranceSec
  rw [if_pos htol]

/-- Witness for C6: with the 7-day preset (604800 s) selected, a gesture
spanning 604850000 ms (604850 s) snaps to exactly 604800 s. -/
theorem zoom_sticky_snap_witness :
    effectiveRawRangeSec (rawRangeSec 0 604850000) 604800 = 604800 :=
  zoom_sticky_snap 0 604850000 604800 604800 rfl (by decide)

/-! ## Claim theorems: `normalizeZoomRange` (C9) -/

/-- C9 counterexample: `normalizeZoomRange` applied to the defined endpoints
(start = 5000, end = 1000) returns `null`, not the swapped range
(1000, 5000) the claim promises. -/
theorem normalizeZoomRange_reversed_counterexample :
    normalizeZoomRange (some 5000) (some 1000) = none ∧
    normalizeZoomRange (some 5000) (some 1000) ≠ some (1000, 5000) := by
  decide

/-- C9 amended: for defined (finite) endpoints, `normalizeZoomRange` returns
the pair unchanged when start < end and returns `null` when start ≥ end;
reversed endpoints are rejected rather than swapped, so every returned range
still satisfies start < end. -/
theorem normalizeZoomRange_ordered_or_null (s e : Int) :
    (s < e → normalizeZoomRange (some s) (some e) = some (s, e)) ∧
    (e ≤ s → normalizeZoomRange (some s) (some e) = none) ∧
    (∀ a b, normalizeZoomRange (some s) (some e) = some (a, b) → a < b) := by
  refine ⟨fun h => ?_, fun h => ?_, fun a b hab => ?_⟩
  · simp only [normalizeZoomRange]
    rw [if_neg (not_le.mpr h)]
  · simp only [normalizeZoomRange]
    rw [if_pos h]
  · simp only [normalizeZoomRange] at hab
    by_cases h : e ≤ s
    · rw [if_pos h] at hab
      exact absurd hab (by simp)
    · rw [if_neg h] at hab
      simp only [Option.some.injEq, Prod.mk.injEq] at hab
      omega

/-- Witness for the amended C9: ordered endpoints pass through unchanged and
the reversed pair from the counterexample is rejected. -/
theorem normalizeZoomRange_ordered_or_null_witness :
    normalizeZoomRange (some 1000) (some 5000) = some (1000, 5000) ∧
    normalizeZoomRange (some 5000) (some 1000) = none :=
  ⟨(normalizeZoomRange_ordered_or_null 1000 5000).1 (by decide),
   (normalizeZoomRange_ordered_or_null 5000 1000).2.1 (by decide)⟩

/-! ## Claim theorems: fetch failure handling (C7) -/

/-- C7: when the fetch for a key fails, the in-flight entry for that key is
removed, no cache entry is created (the cache is untouched), and the error
propagates to the caller; and on success the in-flight entry is removed just
the same (settling removes it unconditionally). -/
theorem fetch_failure_cleanup (s : FetchState)
    (targetEndTime targetRangeSec targetBinSec : Int)
    (msg : String) (now : Nat) :
    (settleFetch s targetEndTime targetRangeSec targetBinSec
        (.error msg) now).1.cache = s.cache ∧
    (settleFetch s targetEndTime targetRangeSec targetBinSec
        (.error msg) now).1.inflight =
      s.inflight.erase (makeCacheKey targetEndTime targetRangeSec targetBinSec) ∧
    (settleFetch s targetEndTime targetRangeSec targetBinSec
        (.error msg) now).2 = .error msg ∧
    ∀ d, (settleFetch s targetEndTime targetRangeSec targetBinSec
        (.ok d) now).1.inflight =
      s.inflight.erase (makeCacheKey targetEndTime targetRangeSec targetBinSec) :=
  ⟨rfl, rfl, rfl, fun _ => rfl⟩

/-! ## Claim theorems: prefetch bounds (C8) -/

/-- C8: `prefetchAdjacent` skips the preceding window exactly when an
available minimum is known (response metadata first, falling back to the
last known range) and the preceding window's start
(`targetEndTime - 2 * rangeMs`) would precede it; and it prefetches the
following window exactly when the available maximum is unknown or the
following window's end does not exceed it. -/
theorem prefetch_bounds_check (dateParse : String → Option Int)
    (targetEndTime targetRangeSec : Int)
    (data : Option AccessStatsResponse) (lastMin lastMax : Option Int) :
    ((prefetchFlags dateParse targetEndTime targetRangeSec data
        lastMin lastMax).1 = false ↔
      ∃ mn, resolvedAvailableMin dateParse data lastMin = some mn ∧
        targetEndTime - 2 * (targetRangeSec * 1000) < mn) ∧
    ((prefetchFlags dateParse targetEndTime targetRangeSec data
        lastMin lastMax).2 = true ↔
      (resolvedAvailableMax dateParse data lastMax = none ∨
        ∃ mx, resolvedAvailableMax dateParse data lastMax = some mx ∧
          targetEndTime + targetRangeSec * 1000 ≤ mx)) := by
  unfold prefetchFlags
  constructor
  · cases hmn : resolvedAvailableMin dateParse data lastMin with
    | none => simp [hmn]
    | some mn =>
        simp only [hmn, decide_eq_false_iff_not, not_le, Option.some.injEq]
        constructor
        · intro h
          exact ⟨mn, rfl, by omega⟩
        · rintro ⟨mn', hmn', hlt⟩
          subst hmn'
          omega
  · cases hmx : resolvedAvailableMax dateParse data lastMax with
    | none => simp [hmx]
    | some mx =>
        simp only [hmx, decide_eq_true_eq, Option.some.injEq,
          reduceCtorEq, false_or]
        constructor
        · intro h
          exact ⟨mx, rfl, h⟩
        · rintro ⟨mx', hmx', hle⟩
          subst hmx'
          exact hle

/-! ## Claim theorems: stale responses (C3) -/

/-- C3: a `loadRange` resolution (success or failure) whose request sequence
number no longer equals the current counter leaves the UI-visible state
completely unchanged: chart data, error message, loading flag and available
range are all untouched. -/
theorem stale_response_discarded (myId curId : Nat)
    (dateParse : String → Option Int)
    (outcome : Except String AccessStatsResponse) (ui : UIState)
    (h : myId ≠ curId) :
    loadResolve myId curId dateParse outcome ui = ui := by
  cases outcome with
  | ok d =>
      simp only [loadResolve]
      rw [if_neg h]
  | error msg =>
      simp only [loadResolve]
      rw [if_neg h]

/-- Witness for C3: a stale success resolution (sequence 1 against current
counter 2) leaves a concrete UI state unchanged. -/
theorem stale_response_discarded_witness :
    loadResolve 1 2 (fun _ => none)
      (.ok ⟨["cl"], none, none, [1000], [("cl", [5])], [5]⟩)
      ⟨none, some "previous failure", true, some 1, some 2⟩ =
      ⟨none, some "previous failure", true, some 1, some 2⟩ :=
  stale_response_discarded 1 2 (fun _ => none)
    (.ok ⟨["cl"], none, none, [1000], [("cl", [5])], [5]⟩)
    ⟨none, some "previous failure", true, some 1, some 2⟩ (by decide)

/-! ## Claim theorems: available-range atomicity (C10) -/

/-- C10: the available-range update of `loadRange` is atomic: it preserves
the both-set-or-both-unset invariant, leaves the previous pair fully
unchanged when either metadata bound is missing or unparseable, and replaces
both components when both parse to finite epoch values. -/
theorem availableRange_atomic_update (dateParse : String → Option Int)
    (d : AccessStatsResponse) (prevMin prevMax : Option Int) :
    ((prevMin.isSome ↔ prevMax.isSome) →
      ((applyMetaRange dateParse d prevMin prevMax).1.isSome ↔
        (applyMetaRange dateParse d prevMin prevMax).2.isSome)) ∧
    ((parseMetaTime dateParse d.metaAvailableMin = none ∨
      parseMetaTime dateParse d.metaAvailableMax = none) →
      applyMetaRange dateParse d prevMin prevMax = (prevMin, prevMax)) ∧
    (∀ a b, parseMetaTime dateParse d.metaAvailableMin = some a →
      parseMetaTime dateParse d.metaAvailableMax = some b →
      applyMetaRange dateParse d prevMin prevMax = (some a, some b)) := by
  unfold applyMetaRange updateAvailableRange
  cases hmn : parseMetaTime dateParse d.metaAvailableMin <;>
    cases hmx : parseMetaTime dateParse d.metaAvailableMax <;>
      simp_all

/-- Witness for C10 at concrete inputs: a response whose `availableMax` is
unparseable leaves the previous pair unchanged (and the invariant holds),
while a response with two parseable bounds replaces both. -/
theorem availableRange_atomic_update_witness :
    applyMetaRange (fun str => if str = "bad" then none else some 7)
      ⟨[], some "2024-01-01", some "bad", [], [], []⟩
      (some 1) (some 2) = (some 1, some 2) ∧
    applyMetaRange (fun str => if str = "bad" then none else some 7)
      ⟨[], some "2024-01-01", some "2024-01-02", [], [], []⟩
      (some 1) (some 2) = (some 7, some 7) :=
  ⟨(availableRange_atomic_update (fun str => if str = "bad" then none else some 7)
      ⟨[], some "2024-01-01", some "bad", [], [], []⟩
      (some 1) (some 2)).2.1 (Or.inr (by decide)),
   (availableRange_atomic_update (fun str => if str = "bad" then none else some 7)
      ⟨[], some "2024-01-01", some "2024-01-02", [], [], []⟩
      (some 1) (some 2)).2.2 7 7 (by decide) (by decide)⟩

/-! ## Claim theorems: request coalescing (C1) -/

theorem runStarts_all_coalesced (s : FetchState)
    (targetEndTime targetRangeSec targetBinSec : Int) (n : Nat)
    (hc : jsGet? s.cache
      (makeCacheKey targetEndTime targetRangeSec targetBinSec) = none)
    (hi : makeCacheKey targetEndTime targetRangeSec targetBinSec ∈ s.inflight) :
    runStarts s targetEndTime targetRangeSec targetBinSec n =
      (List.replicate n
        (.pending (makeCacheKey targetEndTime targetRangeSec targetBinSec)), s) := by
  induction n with
  | zero => rfl
  | succ k ih =>
      have hstart : fetchStart s targetEndTime targetRangeSec targetBinSec =
          (.pending (makeCacheKey targetEndTime targetRangeSec targetBinSec), s) := by
        simp [fetchStart, hc, hi]
      simp only [runStarts, hstart, ih, List.replicate]

/-- C1: in any back-to-back sequence of `fetchStats` calls with the same
(endTime, rangeSec, binSec) triple, starting with the key neither cached nor
in flight, exactly one network request is issued before the first one
settles, every caller receives the very same pending result for the key, the
cache is not touched; and in general a call whose key is already cached
returns the cached window with no network access and no state change. -/
theorem fetchStats_request_coalescing (s : FetchState)
    (targetEndTime targetRangeSec targetBinSec : Int) (n : Nat)
    (hc : jsGet? s.cache
      (makeCacheKey targetEndTime targetRangeSec targetBinSec) = none)
    (hi : makeCacheKey targetEndTime targetRangeSec targetBinSec ∉ s.inflight) :
    (runStarts s targetEndTime targetRangeSec targetBinSec (n + 1)).2.network =
      s.network + 1 ∧
    (∀ res ∈ (runStarts s targetEndTime targetRangeSec targetBinSec (n + 1)).1,
      res = .pending (makeCacheKey targetEndTime targetRangeSec targetBinSec)) ∧
    (runStarts s targetEndTime targetRangeSec targetBinSec (n + 1)).2.cache =
      s.cache ∧
    (∀ (s' : FetchState) (cached : CacheItem),
      jsGet? s'.cache
        (makeCacheKey targetEndTime targetRangeSec targetBinSec) = some cached →
      fetchStart s' targetEndTime targetRangeSec targetBinSec =
        (.hit cached.data, s')) := by
  set key := makeCacheKey targetEndTime targetRangeSec targetBinSec with hkey
  have hstart : fetchStart s targetEndTime targetRangeSec targetBinSec =
      (.pending key,
        { s with inflight := s.inflight ++ [key], network := s.network + 1 }) := by
    simp [fetchStart, ← hkey, hc, hi]
  have hrest := runStarts_all_coalesced
    { s with inflight := s.inflight ++ [key], network := s.network + 1 }
    targetEndTime targetRangeSec targetBinSec n hc (by simp [← hkey])
  rw [← hkey] at hrest
  have hrun : runStarts s targetEndTime targetRangeSec targetBinSec (n + 1) =
      (FetchResult.pending key :: List.replicate n (.pending key),
        { s with inflight := s.inflight ++ [key], network := s.network + 1 }) := by
    simp only [runStarts, hstart, hrest]
  refine ⟨by rw [hrun], ?_, by rw [hrun], ?_⟩
  · intro res hres
    rw [hrun] at hres
    rcases List.mem_cons.mp hres with h | h
    · exact h
    · exact List.eq_of_mem_replicate h
  · intro s' cached hcached
    simp [fetchStart, ← hkey, hcached]

/-- Witness for C1: from the empty state, two back-to-back `fetchStats`
calls for the same triple issue exactly one network request. -/
theorem fetchStats_request_coalescing_witness :
    (runStarts ⟨[], [], 0⟩ 0 604800 300 2).2.network = 0 + 1 :=
  (fetchStats_request_coalescing ⟨[], [], 0⟩ 0 604800 300 1 rfl
    (List.not_mem_nil _)).1

/-! ## Claim theorems: cache bound and eviction (C2) -/

theorem oldestScan_some_isSome (m : JsMap String CacheItem)
    (x : String × Nat) : (oldestScan (some x) m).isSome := by
  induction m generalizing x with
  | nil => rfl
  | cons p rest ih =>
      obtain ⟨bk, bt⟩ := x
      by_cases h : p.2.loadedAt < bt <;>
        simp [oldestScan, oldestStep, h, ih]

theorem oldestScan_mem (m : JsMap String CacheItem)
    (best : Option (String × Nat)) (k : String) (t : Nat)
    (h : oldestScan best m = some (k, t)) :
    best = some (k, t) ∨ ∃ it : CacheItem, (k, it) ∈ m ∧ it.loadedAt = t := by
  induction m generalizing best with
  | nil => exact Or.inl h
  | cons p rest ih =>
      simp only [oldestScan] at h
      rcases ih _ h with hbest | ⟨it, hmem, hload⟩
      · cases best with
        | none =>
            simp only [oldestStep, Option.some.injEq, Prod.mk.injEq] at hbest
            refine Or.inr ⟨p.2, ?_, hbest.2⟩
            rw [← hbest.1]
            exact List.mem_cons_self _ _
        | some b =>
            obtain ⟨bk, bt⟩ := b
            by_cases hlt : p.2.loadedAt < bt
            · rw [oldestStep, if_pos hlt] at hbest
              simp only [Option.some.injEq, Prod.mk.injEq] at hbest
              refine Or.inr ⟨p.2, ?_, hbest.2⟩
              rw [← hbest.1]
              exact List.mem_cons_self _ _
            · rw [oldestStep, if_neg hlt] at hbest
              exact Or.inl hbest
      · exact Or.inr ⟨it, List.mem_cons_of_mem _ hmem, hload⟩

theorem oldestScan_min (m : JsMap String CacheItem)
    (best : Option (String × Nat)) (k : String) (t : Nat)
    (h : oldestScan best m = some (k, t)) :
    (∀ p ∈ m, t ≤ p.2.loadedAt) ∧
    (∀ bk bt, best = some (bk, bt) → t ≤ bt) := by
  induction m generalizing best with
  | nil =>
      refine ⟨by simp, fun bk bt hb => ?_⟩
      rw [hb] at h
      simp only [oldestScan, Option.some.injEq, Prod.mk.injEq] at h
      omega
  | cons p rest ih =>
      simp only [oldestScan] at h
      have hih := ih _ h
      have hbt' : ∀ bk' bt', oldestStep best p = some (bk', bt') →
          t ≤ bt' := hih.2
      constructor
      · intro q hq
        rcases List.mem_cons.mp hq with hq | hq
        · subst hq
          cases best with
          | none => exact hbt' _ _ rfl
          | some b =>
              obtain ⟨bk, bt⟩ := b
              by_cases hlt : q.2.loadedAt < bt
              · exact hbt' _ _ (by rw [oldestStep, if_pos hlt])
              · have := hbt' bk bt (by rw [oldestStep, if_neg hlt])
                omega
        · exact hih.1 q hq
      · intro bk bt hb
        subst hb
        by_cases hlt : p.2.loadedAt < bt
        · have := hbt' _ _ (by rw [oldestStep, if_pos hlt])
          omega
        · exact hbt' _ _ (by rw [oldestStep, if_neg hlt])

/-- C2: inserting a fetched window into a cache that respects the
`MAX_CACHE_SIZE` bound and then running `evictOldestCache` keeps the bound;
and whenever the insertion breaches the bound, exactly one entry is deleted,
namely one whose load timestamp is the smallest in the cache. -/
theorem cache_eviction_bound (cache : JsMap String CacheItem)
    (key : String) (item : CacheItem)
    (hnd : NodupKeys cache)
    (hne : ∀ a ∈ jsKeys cache, a ≠ "")
    (hkey : key ≠ "")
    (hlen : cache.length ≤ MAX_CACHE_SIZE) :
    (evictOldestCache (jsSet cache key item)).length ≤ MAX_CACHE_SIZE ∧
    (MAX_CACHE_SIZE < (jsSet cache key item).length →
      ∃ ko t, oldestScan none (jsSet cache key item) = some (ko, t) ∧
        (∃ oldItem : CacheItem,
          jsGet? (jsSet cache key item) ko = some oldItem ∧
          oldItem.loadedAt = t) ∧
        (∀ p ∈ jsSet cache key item, t ≤ p.2.loadedAt) ∧
        evictOldestCache (jsSet cache key item) =
          jsDelete (jsSet cache key item) ko ∧
        (evictOldestCache (jsSet cache key item)).length + 1 =
          (jsSet cache key item).length) := by
  set m := jsSet cache key item with hm
  have hmlen : m.length ≤ MAX_CACHE_SIZE + 1 := by
    rw [hm, length_jsSet]
    by_cases hk : key ∈ jsKeys cache <;> simp [hk] <;> omega
  by_cases hbig : m.length ≤ MAX_CACHE_SIZE
  · have hevict : evictOldestCache m = m := by
      unfold evictOldestCache
      rw [if_pos hbig]
    refine ⟨by rw [hevict]; exact hbig, fun hc => absurd hbig (by omega)⟩
  · push_neg at hbig
    have hne' : m ≠ [] := by
      intro hnil
      rw [hnil] at hbig
      simp [MAX_CACHE_SIZE] at hbig
    obtain ⟨p0, rest0, hcons⟩ := List.exists_cons_of_ne_nil hne'
    have hsome : (oldestScan none m).isSome := by
      rw [hcons]
      rw [show oldestScan none (p0 :: rest0) =
            oldestScan (some (p0.1, p0.2.loadedAt)) rest0 from rfl]
      exact oldestScan_some_isSome _ _
    obtain ⟨⟨ko, t⟩, hscan⟩ := Option.isSome_iff_exists.mp hsome
    have hmem := oldestScan_mem m none ko t hscan
    simp only [reduceCtorEq, false_or] at hmem
    obtain ⟨oldIt, hmemm, hload⟩ := hmem
    have hkomem : ko ∈ jsKeys m :=
      List.mem_map.mpr ⟨(ko, oldIt), hmemm, rfl⟩
    have hko_ne : ko ≠ "" := by
      rw [hm] at hkomem
      rcases (mem_jsKeys_jsSet cache key ko item).mp hkomem with h | h
      · exact hne ko h
      · rw [h]; exact hkey
    have hndm : NodupKeys m := hm ▸ nodupKeys_jsSet cache key item hnd
    have hget : jsGet? m ko = some oldIt :=
      jsGet?_eq_some_of_mem m ko oldIt hmemm hndm
    have hevict : evictOldestCache m = jsDelete m ko := by
      unfold evictOldestCache
      rw [if_neg (by omega), hscan]
      show (if ko = "" then m else jsDelete m ko) = jsDelete m ko
      rw [if_neg hko_ne]
    have hdel := length_jsDelete_of_mem m ko hkomem
    refine ⟨?_, fun _ =>
      ⟨ko, t, hscan, ⟨oldIt, hget, hload⟩,
        (oldestScan_min m none ko t hscan).1, hevict, by rw [hevict]; omega⟩⟩
    rw [hevict]
    omega

/-- Witness for C2 at concrete inputs: inserting into a one-entry cache with
distinct nonempty keys keeps the cache within the bound. -/
theorem cache_eviction_bound_witness :
    (evictOldestCache (jsSet
      [("100:60:60", ⟨⟨[], none, none, [], [], []⟩, 5⟩)]
      "200:60:60" ⟨⟨[], none, none, [], [], []⟩, 9⟩)).length ≤
      MAX_CACHE_SIZE :=
  (cache_eviction_bound
    [("100:60:60", ⟨⟨[], none, none, [], [], []⟩, 5⟩)]
    "200:60:60" ⟨⟨[], none, none, [], [], []⟩, 9⟩
    (by unfold NodupKeys jsKeys; decide) (by decide) (by decide)
    (by decide)).1

/-! ## Claim theorems: series assembly (C4) -/

theorem jsGetD_addBins (bs : List Int) (vs : List Int) (m : JsMap Int Int)
    (t : Int) :
    jsGetD (addBins m bs vs) t 0 = jsGetD m t 0 + binsContrib bs vs t := by
  induction bs generalizing m vs with
  | nil => simp [addBins, binsContrib]
  | cons bin rest ih =>
      rw [addBins, ih, binsContrib, jsGetD_jsSet]
      by_cases h : t = bin
      · subst h
        rw [if_pos rfl, if_pos rfl]
        omega
      · rw [if_neg h, if_neg (fun hh => h hh.symm)]
        omega

theorem mem_jsKeys_addBins (bs vs : List Int) (m : JsMap Int Int) (t : Int) :
    t ∈ jsKeys (addBins m bs vs) ↔ t ∈ jsKeys m ∨ t ∈ bs := by
  induction bs generalizing m vs with
  | nil => simp [addBins]
  | cons bin rest ih =>
      rw [addBins, ih, mem_jsKeys_jsSet]
      simp only [List.mem_cons]
      tauto

theorem nodupKeys_addBins (bs vs : List Int) (m : JsMap Int Int)
    (h : NodupKeys m) : NodupKeys (addBins m bs vs) := by
  induction bs generalizing m vs with
  | nil => exact h
  | cons bin rest ih =>
      rw [addBins]
      exact ih _ _ (nodupKeys_jsSet _ _ _ h)

theorem jsGetD_processEntries (bins : List Int)
    (entries : JsMap String (List Int))
    (acc : JsMap String (JsMap Int Int)) (ty : String) (t : Int) :
    jsGetD (jsGetD (processEntries bins acc entries) ty []) t 0 =
      jsGetD (jsGetD acc ty []) t 0 +
        (entries.map
          (fun tv => if tv.1 = ty then binsContrib bins tv.2 t else 0)).sum := by
  induction entries generalizing acc with
  | nil => simp [processEntries]
  | cons tv rest ih =>
      obtain ⟨ty0, vs⟩ := tv
      have hhead : ((ty0, vs) :: rest).map
          (fun tv => if tv.1 = ty then binsContrib bins tv.2 t else 0) =
          (if ty0 = ty then binsContrib bins vs t else 0) ::
            rest.map
              (fun tv => if tv.1 = ty then binsContrib bins tv.2 t else 0) :=
        rfl
      rw [processEntries, ih, hhead, List.sum_cons]
      have hset := jsGetD_jsSet acc ty0 ty
        (addBins (jsGetD acc ty0 []) bins vs) ([] : JsMap Int Int)
      by_cases h : ty = ty0
      · subst h
        rw [hset, if_pos rfl, jsGetD_addBins, if_pos rfl]
        omega
      · rw [hset, if_neg h, if_neg (fun hh => h hh.symm)]
        omega

theorem mem_innerKeys_processEntries (bins : List Int)
    (entries : JsMap String (List Int))
    (acc : JsMap String (JsMap Int Int)) (ty : String) (t : Int) :
    t ∈ jsKeys (jsGetD (processEntries bins acc entries) ty []) ↔
      t ∈ jsKeys (jsGetD acc ty []) ∨
        (t ∈ bins ∧ ∃ vs, (ty, vs) ∈ entries) := by
  induction entries generalizing acc with
  | nil => simp [processEntries]
  | cons tv rest ih =>
      obtain ⟨ty0, vs⟩ := tv
      rw [processEntries, ih]
      have hset := jsGetD_jsSet acc ty0 ty
        (addBins (jsGetD acc ty0 []) bins vs) ([] : JsMap Int Int)
      by_cases h : ty = ty0
      · subst h
        rw [hset, if_pos rfl, mem_jsKeys_addBins]
        simp only [List.mem_cons, Prod.mk.injEq, eq_self_iff_true, true_and]
        constructor
        · rintro ((hk | hb) | ⟨hb, vs', hvs'⟩)
          · exact Or.inl hk
          · exact Or.inr ⟨hb, vs, Or.inl rfl⟩
          · exact Or.inr ⟨hb, vs', Or.inr hvs'⟩
        · rintro (hk | ⟨hb, vs', hvs'⟩)
          · exact Or.inl (Or.inl hk)
          · exact Or.inl (Or.inr hb)
      · rw [hset, if_neg h]
        simp only [List.mem_cons, Prod.mk.injEq]
        constructor
        · rintro (hk | ⟨hb, vs', hvs'⟩)
          · exact Or.inl hk
          · exact Or.inr ⟨hb, vs', Or.inr hvs'⟩
        · rintro (hk | ⟨hb, vs', (⟨hty, _⟩ | hvs')⟩)
          · exact Or.inl hk
          · exact absurd hty h
          · exact Or.inr ⟨hb, vs', hvs'⟩

theorem innerNodup_processEntries (bins : List Int)
    (entries : JsMap String (List Int))
    (acc : JsMap String (JsMap Int Int))
    (h : ∀ ty, NodupKeys (jsGetD acc ty [])) :
    ∀ ty, NodupKeys (jsGetD (processEntries bins acc entries) ty []) := by
  induction entries generalizing acc with
  | nil => exact h
  | cons tv rest ih =>
      obtain ⟨ty0, vs⟩ := tv
      rw [processEntries]
      refine ih _ (fun ty => ?_)
      have hset := jsGetD_jsSet acc ty0 ty
        (addBins (jsGetD acc ty0 []) bins vs) ([] : JsMap Int Int)
      by_cases hty : ty = ty0
      · subst hty
        rw [hset, if_pos rfl]
        exact nodupKeys_addBins _ _ _ (h _)
      · rw [hset, if_neg hty]
        exact h ty

theorem jsGetD_foldl_processWindow (ws : List AccessStatsResponse)
    (acc : JsMap String (JsMap Int Int)) (ty : String) (t : Int) :
    jsGetD (jsGetD (ws.foldl processWindow acc) ty []) t 0 =
      jsGetD (jsGetD acc ty []) t 0 + totalContrib ws ty t := by
  induction ws generalizing acc with
  | nil => simp [totalContrib]
  | cons d rest ih =>
      rw [List.foldl_cons, ih]
      have := jsGetD_processEntries d.bins d.countsByType acc ty t
      rw [show processWindow acc d = processEntries d.bins acc d.countsByType
            from rfl, this]
      simp only [totalContrib, windowContrib, List.map_cons, List.sum_cons]
      omega

theorem mem_innerKeys_foldl_processWindow (ws : List AccessStatsResponse)
    (acc : JsMap String (JsMap Int Int)) (ty : String) (t : Int) :
    t ∈ jsKeys (jsGetD (ws.foldl processWindow acc) ty []) ↔
      t ∈ jsKeys (jsGetD acc ty []) ∨
        ∃ d ∈ ws, t ∈ d.bins ∧ ∃ vs, (ty, vs) ∈ d.countsByType := by
  induction ws generalizing acc with
  | nil => simp
  | cons d rest ih =>
      rw [List.foldl_cons, ih,
        show processWindow acc d = processEntries d.bins acc d.countsByType
          from rfl, mem_innerKeys_processEntries]
      simp only [List.mem_cons]
      constructor
      · rintro ((hk | ⟨hb, hvs⟩) | ⟨d', hd', hrest⟩)
        · exact Or.inl hk
        · exact Or.inr ⟨d, Or.inl rfl, hb, hvs⟩
        · exact Or.inr ⟨d', Or.inr hd', hrest⟩
      · rintro (hk | ⟨d', (hd' | hd'), hrest⟩)
        · exact Or.inl (Or.inl hk)
        · subst hd'
          exact Or.inl (Or.inr hrest)
        · exact Or.inr ⟨d', hd', hrest⟩

theorem innerNodup_foldl_processWindow (ws : List AccessStatsResponse)
    (acc : JsMap String (JsMap Int Int))
    (h : ∀ ty, NodupKeys (jsGetD acc ty [])) :
    ∀ ty, NodupKeys (jsGetD (ws.foldl processWindow acc) ty []) := by
  induction ws generalizing acc with
  | nil => exact h
  | cons d rest ih =>
      rw [List.foldl_cons]
      exact ih _ (innerNodup_processEntries d.bins d.countsByType acc h)

theorem jsGetD_initTypeMaps_aux (ts : List String)
    (acc : JsMap String (JsMap Int Int))
    (h : ∀ ty, jsGetD acc ty [] = []) (ty : String) :
    jsGetD (ts.foldl (fun a s => jsSet a s []) acc) ty [] = [] := by
  induction ts generalizing acc with
  | nil => exact h ty
  | cons s rest ih =>
      rw [List.foldl_cons]
      refine ih _ (fun ty' => ?_)
      rw [jsGetD_jsSet]
      by_cases hty : ty' = s
      · rw [if_pos hty]
      · rw [if_neg hty]
        exact h ty'

theorem jsGetD_initTypeMaps (ts : List String) (ty : String) :
    jsGetD (initTypeMaps ts) ty [] = [] :=
  jsGetD_initTypeMaps_aux ts [] (fun _ => rfl) ty

theorem jsGet?_map_snd {α β γ : Type} [DecidableEq α]
    (m : JsMap α β) (f : β → γ) (k : α) :
    jsGet? (m.map (fun p => (p.1, f p.2))) k = (jsGet? m k).map f := by
  induction m with
  | nil => rfl
  | cons p rest ih =>
      rw [List.map_cons, jsGet?_cons, jsGet?_cons]
      by_cases h : p.1 = k
      · rw [if_pos h, if_pos h]
        rfl
      · rw [if_neg h, if_neg h]
        exact ih

theorem sortEntries_perm (m : JsMap Int Int) : (sortEntries m).Perm m :=
  List.perm_insertionSort _ m

theorem sortEntries_sorted (m : JsMap Int Int) :
    (sortEntries m).Pairwise (fun a b => a.1 ≤ b.1) := by
  haveI : IsTotal (Int × Int) (fun a b => a.1 ≤ b.1) :=
    ⟨fun a b => le_total a.1 b.1⟩
  haveI : IsTrans (Int × Int) (fun a b => a.1 ≤ b.1) :=
    ⟨fun a b c hab hbc => le_trans hab hbc⟩
  exact List.sorted_insertionSort _ m

/-- C4: for every cache content and every category present in the merged
output, the per-category series is strictly increasing in timestamp (each
timestamp appears exactly once), every emitted value is the sum of the
values that all cached windows hold for that timestamp, and a timestamp is
emitted exactly when some cached window has it as a bin and carries counts
for the category. -/
theorem seriesData_sums_overlaps (ws : List AccessStatsResponse)
    (ty : String) (series : List (Int × Int))
    (h : jsGet? (seriesData ws) ty = some series) :
    series.Pairwise (fun a b => a.1 < b.1) ∧
    (∀ p ∈ series, p.2 = totalContrib ws ty p.1) ∧
    (∀ t : Int, (∃ p ∈ series, p.1 = t) ↔
      ∃ d ∈ ws, t ∈ d.bins ∧ ∃ vs, (ty, vs) ∈ d.countsByType) := by
  rw [seriesData, jsGet?_map_snd] at h
  obtain ⟨m0, hm0, hser⟩ : ∃ m0, jsGet? (dataByType ws) ty = some m0 ∧
      series = sortEntries m0 := by
    cases hq : jsGet? (dataByType ws) ty with
    | none =>
        rw [hq] at h
        exact absurd h (by simp)
    | some m0 =>
        rw [hq] at h
        exact ⟨m0, rfl, by simpa using h.symm⟩
  have hgetD : jsGetD (dataByType ws) ty [] = m0 := by
    rw [jsGetD, hm0]
    rfl
  have hinner : ∀ ty', NodupKeys (jsGetD (dataByType ws) ty' []) := by
    refine innerNodup_foldl_processWindow _ _ (fun ty' => ?_)
    rw [jsGetD_initTypeMaps]
    exact List.nodup_nil
  have hnd0 : NodupKeys m0 := hgetD ▸ hinner ty
  have hperm := sortEntries_perm m0
  have hkeysperm : (series.map (fun p => p.1)).Perm (m0.map (fun p => p.1)) :=
    (hser ▸ hperm).map _
  have hndser : NodupKeys series :=
    (hkeysperm.nodup_iff).mpr hnd0
  have hval : ∀ p ∈ series, p.2 = totalContrib ws ty p.1 := by
    intro p hp
    have hpm : p ∈ m0 := hperm.mem_iff.mp (hser ▸ hp)
    have hget : jsGet? m0 p.1 = some p.2 :=
      jsGet?_eq_some_of_mem m0 p.1 p.2 (by simpa using hpm) hnd0
    have hsum := jsGetD_foldl_processWindow ws
      (initTypeMaps (collectTypes ws)) ty p.1
    rw [show (dataByType ws) = ws.foldl processWindow
          (initTypeMaps (collectTypes ws)) from rfl] at hgetD
    rw [hgetD] at hsum
    rw [jsGetD_initTypeMaps] at hsum
    simp only [jsGetD, hget, Option.getD_some, jsGet?_nil,
      Option.getD_none] at hsum
    omega
  refine ⟨?_, hval, ?_⟩
  · have hsorted := hser ▸ sortEntries_sorted m0
    have hne : series.Pairwise (fun a b : Int × Int => a.1 ≠ b.1) := by
      have h2 : (series.map (fun p : Int × Int => p.1)).Pairwise
          (fun a b => a ≠ b) := hndser
      exact List.pairwise_map.mp h2
    exact (hsorted.and hne).imp (fun hab => lt_of_le_of_ne hab.1 hab.2)
  · intro t
    have hmem := mem_innerKeys_foldl_processWindow ws
      (initTypeMaps (collectTypes ws)) ty t
    rw [show (dataByType ws) = ws.foldl processWindow
          (initTypeMaps (collectTypes ws)) from rfl] at hgetD
    rw [hgetD, jsGetD_initTypeMaps] at hmem
    simp only [jsKeys, List.map_nil, List.not_mem_nil, false_or] at hmem
    rw [← hmem]
    constructor
    · rintro ⟨p, hp, hpt⟩
      subst hpt
      exact List.mem_map.mpr ⟨p, hperm.mem_iff.mp (hser ▸ hp), rfl⟩
    · intro ht
      obtain ⟨p, hp, hpt⟩ := List.mem_map.mp ht
      exact ⟨p, hser ▸ hperm.mem_iff.mpr hp, hpt⟩

/-- Witness for C4, the spec's own example: windows holding bins
{1000: 5, 2000: 7} and {2000: 3, 3000: 9} for category "cl" merge into the
sorted series [(1000, 5), (2000, 10), (3000, 9)] — the overlapping bin 2000
sums to 10. -/
theorem seriesData_sums_overlaps_witness :
    (10 : Int) = totalContrib [exampleWindow1, exampleWindow2] "cl" 2000 :=
  (seriesData_sums_overlaps [exampleWindow1, exampleWindow2] "cl"
    [(1000, 5), (2000, 10), (3000, 9)] (by decide)).2.1
    ((2000 : Int), (10 : Int)) (by decide)

end Svitlo
